import Mathlib

/-!
# PriceWatch — Price & Discount Extraction Engine: a verified shallow embedding

This file embeds the price-parsing core of the PriceWatch repository
(`parsePrice`, `parsePrices`, `validatePriceResult` from the price-parser
module, and the pure page-text analysis of the fallback price locators of the
scraper module) as executable Lean definitions, and proves or refutes the
specification claims about them.

Modelling conventions:
* JavaScript strings are `String`/`List Char`; the regular expressions of the
  source are transliterated into deterministic character scanners (each regex
  in the source backtracks only trivially, which is argued scanner by scanner
  in the doc comments).
* JavaScript numbers are modelled as exact rationals `ℚ`.  All arithmetic
  *inside* executable definitions is performed by `qmul`/`qsub`/`qdiv`
  (implemented via `Rat.divInt`, which reduces inside the kernel); the lemmas
  `qmul_eq`, `qsub_eq`, `qdiv_eq` identify them with the field operations of
  `ℚ`, which are used in the statements.
* `Math.round` (round half towards +∞) is `⌊x + 1/2⌋`, computed executably by
  `jsRound`.
-/

set_option maxRecDepth 4000

/-- Rational multiplication via `Rat.divInt` (kernel-reducible). -/
def qmul (a b : ℚ) : ℚ := Rat.divInt (a.num * b.num) (a.den * b.den)

/-- Rational subtraction via `Rat.divInt` (kernel-reducible). -/
def qsub (a b : ℚ) : ℚ := Rat.divInt (a.num * b.den - b.num * a.den) (a.den * b.den)

/-- Rational division via `Rat.divInt` (kernel-reducible). -/
def qdiv (a b : ℚ) : ℚ := Rat.divInt (a.num * b.den) (a.den * b.num)

/-- JavaScript `Math.round` on a rational: `⌊q + 1/2⌋`, computed via
`Rat.divInt` so that it reduces in the kernel. -/
def jsRound (q : ℚ) : ℤ := ⌊Rat.divInt (2 * q.num + q.den) (2 * q.den)⌋

lemma qmul_eq (a b : ℚ) : qmul a b = a * b := by
  have ha : (a.den : ℚ) ≠ 0 := by exact_mod_cast a.den_nz
  have hb : (b.den : ℚ) ≠ 0 := by exact_mod_cast b.den_nz
  rw [qmul, Rat.divInt_eq_div]
  push_cast
  conv_rhs => rw [← Rat.num_div_den a, ← Rat.num_div_den b]
  field_simp

lemma qsub_eq (a b : ℚ) : qsub a b = a - b := by
  have ha : (a.den : ℚ) ≠ 0 := by exact_mod_cast a.den_nz
  have hb : (b.den : ℚ) ≠ 0 := by exact_mod_cast b.den_nz
  rw [qsub, Rat.divInt_eq_div]
  push_cast
  conv_rhs => rw [← Rat.num_div_den a, ← Rat.num_div_den b]
  field_simp
  ring

lemma qdiv_eq (a b : ℚ) : qdiv a b = a / b := by
  by_cases hb : b = 0
  · subst hb
    rw [qdiv, Rat.divInt_eq_div]
    norm_num
  · have ha : (a.den : ℚ) ≠ 0 := by exact_mod_cast a.den_nz
    have hbd : (b.den : ℚ) ≠ 0 := by exact_mod_cast b.den_nz
    have hbn : (b.num : ℚ) ≠ 0 := by exact_mod_cast Rat.num_ne_zero.2 hb
    rw [qdiv, Rat.divInt_eq_div]
    push_cast
    conv_rhs => rw [← Rat.num_div_den a, ← Rat.num_div_den b]
    rw [div_div_div_eq]

lemma jsRound_eq (q : ℚ) : jsRound q = ⌊q + 1/2⌋ := by
  have hd : (q.den : ℚ) ≠ 0 := by exact_mod_cast q.den_nz
  rw [jsRound, Rat.divInt_eq_div]
  congr 1
  push_cast
  conv_rhs => rw [← Rat.num_div_den q]
  field_simp
  ring

/-! ## Character classes (JavaScript regex semantics) -/

/-- The whitespace characters matched by JavaScript `\s` (and removed by
`String.prototype.trim`). -/
def spaceChars : List Char :=
  ['\t', '\n', '\x0b', '\x0c', '\r', ' ', '\u00A0', '\u1680',
   '\u2000', '\u2001', '\u2002', '\u2003', '\u2004', '\u2005', '\u2006',
   '\u2007', '\u2008', '\u2009', '\u200A', '\u2028', '\u2029', '\u202F',
   '\u205F', '\u3000', '\uFEFF']

/-- JavaScript `\s` as a character predicate. -/
def jsSpace (c : Char) : Bool := spaceChars.contains c

/-- JavaScript `\w` (word character) `[A-Za-z0-9_]`. -/
def isWordB (c : Char) : Bool := c.isAlpha || c.isDigit || c = '_'

/-- JavaScript line terminators, which `.` does *not* match without the `s`
flag. -/
def isLineTerm (c : Char) : Bool :=
  c = '\n' || c = '\r' || c = '\u2028' || c = '\u2029'

/-- `String.prototype.trim` on a character list. -/
def jsTrim (l : List Char) : List Char :=
  ((l.dropWhile jsSpace).reverse.dropWhile jsSpace).reverse

/-- `String.prototype.trim`. -/
def jsTrimStr (s : String) : String := String.mk (jsTrim s.data)

/-- ASCII lowercasing (`String.prototype.toLowerCase` restricted to the
Latin alphabet, which is all the source's keyword matching relies on). -/
def lowerL (l : List Char) : List Char := l.map Char.toLower

/-- `p` occurs as a leading segment of `l` (character-wise). -/
def startsWithL : List Char → List Char → Bool
  | [], _ => true
  | _ :: _, [] => false
  | p :: ps, c :: cs => p = c && startsWithL ps cs

/-- `String.prototype.includes`: `pat` occurs contiguously somewhere in `l`. -/
def containsSub (l pat : List Char) : Bool :=
  match l with
  | [] => startsWithL pat []
  | _ :: rest => startsWithL pat l || containsSub rest pat

/-- Digits of a decimal numeral read as a natural number
(`parseFloat` on the integer part). -/
def natOfDigits (l : List Char) : Nat :=
  l.foldl (fun acc c => 10 * acc + (c.toNat - '0'.toNat)) 0

/-- `parseFloat` on a well-formed numeral `\d+(\.\d+)?` (this is the only
shape ever passed to `parseFloat` by the embedded code). -/
def ratOfNumeral (l : List Char) : ℚ :=
  let ip := l.takeWhile Char.isDigit
  let rest := l.drop ip.length
  match rest with
  | '.' :: ds =>
    let fr := ds.takeWhile Char.isDigit
    mkRat (natOfDigits ip * 10 ^ fr.length + natOfDigits fr) (10 ^ fr.length)
  | _ => (natOfDigits ip : ℚ)

/-- `replace(/,/g, '')`. -/
def removeCommas (l : List Char) : List Char := l.filter (fun c => c ≠ ',')

/-! ## The three-tier numeric patterns of `extractNumericPrice`

Tier 1: `/\$(\d{1,3}(?:,\d{3})*(?:\.\d+)?)/g`;
tier 2: `/\b(\d{1,3}(?:,\d{3})*\.\d{2})\b/g`;
tier 3: `/\b(\d+(?:\.\d+)?)\b/g`.

Each is transliterated as a scanner producing the list of captured groups in
match order.  The scanners advance one character on a failed match attempt
and continue after the match end on success, exactly as a JavaScript global
regex does.  None of the three patterns needs genuine backtracking:
in tier 1 everything after `\d{1,3}` is optional, and shortening a greedy
digit run only exposes another digit, which no later pattern part accepts;
in tiers 2 and 3 the same argument applies, so greedy matching is exact. -/

/-- Greedy `(?:,\d{3})*`: consume comma-plus-three-digit groups, returning
the consumed characters (with commas) and the remaining input. -/
def grabGroups : List Char → List Char × List Char
  | ',' :: a :: b :: c :: rest =>
    if a.isDigit && b.isDigit && c.isDigit then
      let (g, r) := grabGroups rest
      (',' :: a :: b :: c :: g, r)
    else ([], ',' :: a :: b :: c :: rest)
  | l => ([], l)

/-- Greedy `(?:\.\d+)?`: an optional dot followed by one or more digits. -/
def grabFrac1 : List Char → List Char × List Char
  | '.' :: rest =>
    let ds := rest.takeWhile Char.isDigit
    if ds = [] then ([], '.' :: rest) else ('.' :: ds, rest.drop ds.length)
  | l => ([], l)

/-- Greedy `\d{1,n}` prefix. -/
def digitsTake (n : Nat) (l : List Char) : List Char :=
  (l.takeWhile Char.isDigit).take n

/-- Tier-1 scanner `/\$(\d{1,3}(?:,\d{3})*(?:\.\d+)?)/g`: all captures in
match order.  Fuel-based recursion (the fuel is the input length) so that the
definition evaluates inside the kernel. -/
def tier1Aux : Nat → List Char → List (List Char)
  | 0, _ => []
  | _ + 1, [] => []
  | fuel + 1, c :: rest =>
    if c = '$' then
      let d := digitsTake 3 rest
      if d = [] then tier1Aux fuel rest
      else
        let (gs, r2) := grabGroups (rest.drop d.length)
        let (fr, r3) := grabFrac1 r2
        (d ++ gs ++ fr) :: tier1Aux fuel r3
    else tier1Aux fuel rest

def tier1 (l : List Char) : List (List Char) := tier1Aux l.length l

/-- Attempt the tier-2 body `\d{1,3}(?:,\d{3})*\.\d{2}\b` at a position where
the leading `\b` already holds.  A digit run longer than 3 makes every
backtracking alternative fail (the character after a shortened run is a
digit, which neither `,` nor `\.` accepts), hence the length guard. -/
def tier2At (l : List Char) : Option (List Char × List Char) :=
  let run := l.takeWhile Char.isDigit
  if run = [] || 3 < run.length then none
  else
    let (gs, r2) := grabGroups (l.drop run.length)
    match r2 with
    | '.' :: a :: b :: r3 =>
      if a.isDigit && b.isDigit &&
          (match r3 with | [] => true | c :: _ => !isWordB c) then
        some (run ++ gs ++ ['.', a, b], r3)
      else none
    | _ => none

/-- Tier-2 scanner; the boolean tracks whether the previous character is a
word character (for `\b`). -/
def tier2Aux : Nat → Bool → List Char → List (List Char)
  | 0, _, _ => []
  | _ + 1, _, [] => []
  | fuel + 1, prevWord, c :: rest =>
    if !prevWord && c.isDigit then
      match tier2At (c :: rest) with
      | some (cap, r3) => cap :: tier2Aux fuel true r3
      | none => tier2Aux fuel (isWordB c) rest
    else tier2Aux fuel (isWordB c) rest

def tier2 (l : List Char) : List (List Char) := tier2Aux l.length false l

/-- Attempt the tier-3 body `\d+(?:\.\d+)?\b` at a position where the leading
`\b` already holds.  If the optional fraction is present but the trailing
`\b` fails after it, the regex drops the fraction and succeeds on the integer
part (the following `.` is a non-word character). -/
def tier3At (l : List Char) : Option (List Char × List Char) :=
  let run := l.takeWhile Char.isDigit
  if run = [] then none
  else
    let r1 := l.drop run.length
    match r1 with
    | '.' :: rest2 =>
      let ds := rest2.takeWhile Char.isDigit
      if ds = [] then some (run, r1)
      else
        let r3 := rest2.drop ds.length
        if (match r3 with | [] => true | c :: _ => !isWordB c) then
          some (run ++ '.' :: ds, r3)
        else some (run, r1)
    | [] => some (run, [])
    | c :: _ => if !isWordB c then some (run, r1) else none

/-- Tier-3 scanner. -/
def tier3Aux : Nat → Bool → List Char → List (List Char)
  | 0, _, _ => []
  | _ + 1, _, [] => []
  | fuel + 1, prevWord, c :: rest =>
    if !prevWord && c.isDigit then
      match tier3At (c :: rest) with
      | some (cap, r3) => cap :: tier3Aux fuel true r3
      | none => tier3Aux fuel (isWordB c) rest
    else tier3Aux fuel (isWordB c) rest

def tier3 (l : List Char) : List (List Char) := tier3Aux l.length false l

example : tier1 "$1,234.56 and $7".data = ["1,234.56".data, "7".data] := by decide
example : tier1 "$1..99".data = ["1".data] := by decide
example : tier2 "Save 5 now 19.99 ok".data = ["19.99".data] := by decide
example : tier2 "1234.56".data = [] := by decide
example : tier3 "1.99a x 7".data = ["1".data, "7".data] := by decide
example : tier3 "12.34.56".data = ["12.34".data, "56".data] := by decide

/-! ## The save-amount skip and the negative-price check -/

/-- The word `save` (lower case), for `includes('save')` checks. -/
def saveWord : List Char := ['s', 'a', 'v', 'e']

/-- Match the captured-group part of the dynamic regex
`new RegExp('save\\s*\\$?' + cap + '\\b', 'i')` against the input: digits and
commas of `cap` are literals, a dot in `cap` is the regex wildcard `.`
(matching anything except a line terminator).  Returns the rest on success. -/
def capMatch : List Char → List Char → Option (List Char)
  | [], l => some l
  | _ :: _, [] => none
  | p :: ps, c :: cs =>
    if p = '.' then (if isLineTerm c then none else capMatch ps cs)
    else if p.toLower = c.toLower then capMatch ps cs
    else none

/-- The tail `\s*\$?<cap>\b` of the dynamic save regex, tried at a fixed
position (input starts right after the matched `save`).  `\s*` is exact
greedy: every capture starts with a digit, so a shorter whitespace run leaves
a whitespace character where `\$?` or the first digit is required. -/
def saveTail (cap l : List Char) : Bool :=
  let r1 := l.drop ((l.takeWhile jsSpace).length)
  let r2 := match r1 with
    | '$' :: t => t
    | t => t
  match capMatch cap r2 with
  | some r3 =>
    match r3 with
    | [] => true
    | c :: _ => !isWordB c
  | none => false

/-- `savePattern.test(text)`: scan for a case-insensitive `save` followed by
`\s*\$?<cap>\b`. -/
def savePatScan (cap : List Char) : List Char → Bool
  | [] => false
  | c :: rest =>
    (startsWithL saveWord (lowerL (c :: rest)) && saveTail cap ((c :: rest).drop 4))
      || savePatScan cap rest

/-- The regex test `\$\s*` followed by `-` (slash-delimited in the source):
a dollar sign, optional whitespace, then a minus. -/
def dollarWsMinus : List Char → Bool
  | [] => false
  | c :: rest =>
    (c = '$' &&
      (match rest.drop ((rest.takeWhile jsSpace).length) with
       | c' :: _ => c' = '-'
       | [] => false))
      || dollarWsMinus rest

/-- The negative-price guard of `extractNumericPrice`: `text.includes('$-')`
or the dollar-whitespace-minus regex test. -/
def negCheck (l : List Char) : Bool :=
  containsSub l ['$', '-'] || dollarWsMinus l

/-! ## `extractNumericPrice` -/

/-- The inner match loop of `extractNumericPrice`: walk the captures of one
tier in source order; a positive parse is returned unless the text contains
`save` and the dynamic save regex accepts it with a value under 50, in which
case the match is skipped. -/
def selectLoop (text lc : List Char) : List (List Char) → Option ℚ
  | [] => none
  | cap :: rest =>
    let parsed := ratOfNumeral (removeCommas cap)
    if 0 < parsed then
      if containsSub lc saveWord then
        if savePatScan cap text && parsed < 50 then selectLoop text lc rest
        else some parsed
      else some parsed
    else selectLoop text lc rest

/-- The outer pattern loop of `extractNumericPrice`: tiers are tried in
order; note that the source falls through to the *next* tier when a tier has
matches but the inner loop accepts none of them. -/
def tiersLoop (text lc : List Char) : List (List (List Char)) → Option ℚ
  | [] => none
  | ms :: rest =>
    match selectLoop text lc ms with
    | some v => some v
    | none => tiersLoop text lc rest

/-- `extractNumericPrice(text)`. -/
def extractNumericPrice (s : String) : Option ℚ :=
  let text := s.data
  if negCheck text then none
  else tiersLoop text (lowerL text) [tier1 text, tier2 text, tier3 text]

/-! ## Classifiers and `parsePrice` -/

/-- `detectCurrency(text)`. -/
def detectCurrency (l : List Char) : Option String :=
  if l.contains '$' || containsSub (lowerL l) ['c', 'a', 'd'] then some "CAD"
  else if l.contains '€' then some "EUR"
  else if l.contains '£' then some "GBP"
  else none

/-- The promotional lexicon of `detectSalePrice`. -/
def saleIndicators : List (List Char) :=
  [['s','a','l','e'], ['s','a','v','e'], ['w','a','s'], ['n','o','w'],
   ['s','p','e','c','i','a','l'], ['p','r','o','m','o'],
   ['d','i','s','c','o','u','n','t'], ['c','l','e','a','r','a','n','c','e'],
   ['r','e','d','u','c','e','d'], ['o','f','f'], ['%'], ['d','e','a','l'],
   ['m','e','m','b','e','r'], ['o','p','t','i','m','u','m']]

/-- `detectSalePrice(text)`. -/
def detectSalePrice (l : List Char) : Bool :=
  saleIndicators.any (fun ind => containsSub (lowerL l) ind)

/-- One alternative of the context regex
`/\b(each|per\s+\w+|from|starting\s+at|up\s+to)\b/i`, tried at a position of
the lower-cased text where the leading `\b` holds; returns the lower-cased
capture.  The five alternatives start with five distinct letters, so
alternation order is immaterial at any single position. -/
def ctxAlt (l : List Char) : Option (List Char) :=
  if startsWithL ['e','a','c','h'] l then
    (match l.drop 4 with
     | [] => some ['e','a','c','h']
     | c :: _ => if isWordB c then none else some ['e','a','c','h'])
  else if startsWithL ['p','e','r'] l then
    (let r1 := l.drop 3
     let ws := r1.takeWhile jsSpace
     if ws = [] then none
     else
       let r2 := r1.drop ws.length
       let w := r2.takeWhile isWordB
       if w = [] then none else some (['p','e','r'] ++ ws ++ w))
  else if startsWithL ['f','r','o','m'] l then
    (match l.drop 4 with
     | [] => some ['f','r','o','m']
     | c :: _ => if isWordB c then none else some ['f','r','o','m'])
  else if startsWithL ['s','t','a','r','t','i','n','g'] l then
    (let r1 := l.drop 8
     let ws := r1.takeWhile jsSpace
     if ws = [] then none
     else
       let r2 := r1.drop ws.length
       if startsWithL ['a','t'] r2 then
         (match r2.drop 2 with
          | [] => some (['s','t','a','r','t','i','n','g'] ++ ws ++ ['a','t'])
          | c :: _ =>
            if isWordB c then none
            else some (['s','t','a','r','t','i','n','g'] ++ ws ++ ['a','t']))
       else none)
  else if startsWithL ['u','p'] l then
    (let r1 := l.drop 2
     let ws := r1.takeWhile jsSpace
     if ws = [] then none
     else
       let r2 := r1.drop ws.length
       if startsWithL ['t','o'] r2 then
         (match r2.drop 2 with
          | [] => some (['u','p'] ++ ws ++ ['t','o'])
          | c :: _ =>
            if isWordB c then none
            else some (['u','p'] ++ ws ++ ['t','o']))
       else none)
  else none

/-- First match of the context regex over the lower-cased text; the boolean
tracks whether the previous character is a word character. -/
def ctxScan : Bool → List Char → Option (List Char)
  | _, [] => none
  | prevWord, c :: rest =>
    match (if prevWord then none else ctxAlt (c :: rest)) with
    | some cap => some cap
    | none => ctxScan (isWordB c) rest

/-- `extractContext(text)`: the first context qualifier, lower-cased. -/
def extractContext (l : List Char) : Option String :=
  (ctxScan false (lowerL l)).map String.mk

/-- The `ParsedPrice` record of the source. -/
structure ParsedPrice where
  value : ℚ
  originalText : String
  currency : Option String
  isSalePrice : Bool
  context : Option String
deriving DecidableEq, Repr

/-- `parsePrice(priceText)` for string inputs.  The falsiness test
`!priceText` coincides with the emptiness test on the trimmed text for
strings, so both are represented by the single `trimmed = []` check. -/
def parsePrice (priceText : String) : Option ParsedPrice :=
  let trimmed := jsTrim priceText.data
  if trimmed = [] then none
  else
    match extractNumericPrice (String.mk trimmed) with
    | none => none
    | some v =>
      if v ≤ 0 then none
      else
        some { value := v
               originalText := String.mk trimmed
               currency := detectCurrency trimmed
               isSalePrice := detectSalePrice trimmed
               context := extractContext trimmed }

/-- A JavaScript value handed to `parsePrice` at runtime; the guard
`!priceText || typeof priceText !== 'string'` rejects everything but a
non-empty string. -/
inductive JSVal where
  | str (s : String)
  | nullV
  | undefV
  | numV (q : ℚ)
  | boolV (b : Bool)
deriving DecidableEq

/-- `parsePrice` on an arbitrary JavaScript value. -/
def parsePriceJS : JSVal → Option ParsedPrice
  | .str s => parsePrice s
  | _ => none

example : parsePrice "Save $5 - Now $19.99" =
    some { value := mkRat 1999 100, originalText := "Save $5 - Now $19.99",
           currency := some "CAD", isSalePrice := true, context := none } := by
  decide
example : parsePrice "$0.00" = none := by decide
example : parsePrice "$-5.99" = none := by decide
example : parsePrice "   " = none := by decide
example : extractNumericPrice "$0.00 7.50" = some (mkRat 15 2) := by decide
example : parsePrice " $5.00" =
    some { value := 5, originalText := "$5.00",
           currency := some "CAD", isSalePrice := false, context := none } := by
  decide

/-! ## `parsePrices` and `validatePriceResult` -/

/-- The `PriceParsingResult` record of the source. -/
structure PriceParsingResult where
  currentPrice : Option ParsedPrice
  regularPrice : Option ParsedPrice
  discountPercent : Option ℚ
  promoText : Option String
  errors : List String
deriving DecidableEq, Repr

/-- `parsePrices(currentPriceText?, regularPriceText?, promoText?)`.
`none` stands for `null`/`undefined`; the truthiness guard on each text
argument is `some s` with `s ≠ ""`. -/
def parsePrices (currentPriceText regularPriceText promoText : Option String) :
    PriceParsingResult :=
  let cur : Option ParsedPrice :=
    match currentPriceText with
    | some s => if s = "" then none else parsePrice s
    | none => none
  let curErr : List String :=
    match currentPriceText with
    | some s =>
      if s = "" then []
      else
        match parsePrice s with
        | some _ => []
        | none => ["Failed to parse current price: \"" ++ s ++ "\""]
    | none => []
  let reg : Option ParsedPrice :=
    match regularPriceText with
    | some s => if s = "" then none else parsePrice s
    | none => none
  let regErr : List String :=
    match regularPriceText with
    | some s =>
      if s = "" then []
      else
        match parsePrice s with
        | some _ => []
        | none => ["Failed to parse regular price: \"" ++ s ++ "\""]
    | none => []
  let disc : Option ℚ :=
    match cur, reg with
    | some p, some q =>
      if p.value < q.value then
        some ((jsRound (qmul (qdiv (qsub q.value p.value) q.value) 100) : ℤ) : ℚ)
      else none
    | _, _ => none
  { currentPrice := cur
    regularPrice := reg
    discountPercent := disc
    promoText :=
      match promoText with
      | some s => if jsTrimStr s = "" then none else some (jsTrimStr s)
      | none => none
    errors := curErr ++ regErr }

/-- `validatePriceResult(result)`. -/
def validatePriceResult (result : PriceParsingResult) : Bool :=
  match result.currentPrice with
  | none => false
  | some cp =>
    if cp.value ≤ 0 then false
    else if (match result.regularPrice with
             | some rp => decide (rp.value < cp.value)
             | none => false) then false
    else
      match result.discountPercent with
      | some d => if d < 0 ∨ 100 < d then false else true
      | none => true

example :
    (parsePrices (some "Sale: $24.99") (some "$34.99") (some "Save 30%!")).discountPercent
      = some 29 ∧
    (parsePrices (some "Sale: $24.99") (some "$34.99") (some "Save 30%!")).promoText
      = some "Save 30%!" := by decide

/-! ## The fallback locator (pure page-text analysis)

`extractRegularPriceFromPage` steps 1–2 and `extractPriceFromPage`, restricted
to their page-text analysis (the only DOM-dependent part, the strikethrough
element search of step 3, lies outside the page-text contract). -/

/-- The keyword alternation `(?:was|originally|regular|msrp|list)` of the
first contextual pattern.  The five words start with five distinct letters,
so at most one alternative can match at a given position. -/
def kwListA : List (List Char) :=
  [['w','a','s'], ['o','r','i','g','i','n','a','l','l','y'],
   ['r','e','g','u','l','a','r'], ['m','s','r','p'], ['l','i','s','t']]

/-- The keyword alternation `(?:was|originally|regular|list)` of the second
contextual pattern (no `msrp`). -/
def kwListB : List (List Char) :=
  [['w','a','s'], ['o','r','i','g','i','n','a','l','l','y'],
   ['r','e','g','u','l','a','r'], ['l','i','s','t']]

/-- Optional `\.\d{2}` (exactly two digits). -/
def fracDD : List Char → List Char × List Char
  | '.' :: a :: b :: rest =>
    if a.isDigit && b.isDigit then (['.', a, b], rest)
    else ([], '.' :: a :: b :: rest)
  | l => ([], l)

/-- The contextual pattern
`(?:was|originally|regular|msrp|list)\s*:?\s*\$?(\d{1,4}(?:\.\d{2})?)` tried
at one position of the lower-cased page text; returns the capture. -/
def patAAt (l : List Char) : Option (List Char) :=
  match kwListA.find? (fun k => startsWithL k l) with
  | none => none
  | some k =>
    let r1 := l.drop k.length
    let r2 := r1.drop (r1.takeWhile jsSpace).length
    let r3 := match r2 with
      | ':' :: t => t
      | t => t
    let r4 := r3.drop (r3.takeWhile jsSpace).length
    let r5 := match r4 with
      | '$' :: t => t
      | t => t
    let d := digitsTake 4 r5
    if d = [] then none
    else some (d ++ (fracDD (r5.drop d.length)).1)

/-- First match of the first contextual pattern (the source only ever uses
`matches[0]`). -/
def scanA : List Char → Option (List Char)
  | [] => none
  | c :: rest =>
    match patAAt (c :: rest) with
    | some cap => some cap
    | none => scanA rest

/-- The second contextual pattern
`\$(\d{1,4}(?:\.\d{2})?)\s*(?:was|originally|regular|list)` tried at one
position of the lower-cased page text. -/
def patBAt (l : List Char) : Option (List Char) :=
  match l with
  | '$' :: r1 =>
    let d := digitsTake 4 r1
    if d = [] then none
    else
      let (fr, r2) := fracDD (r1.drop d.length)
      let r3 := r2.drop (r2.takeWhile jsSpace).length
      if kwListB.any (fun k => startsWithL k r3) then some (d ++ fr) else none
  | _ => none

/-- First match of the second contextual pattern. -/
def scanB : List Char → Option (List Char)
  | [] => none
  | c :: rest =>
    match patBAt (c :: rest) with
    | some cap => some cap
    | none => scanB rest

/-- Step 1 of `extractRegularPriceFromPage`: the two contextual patterns in
order; the first whose *first* match parses into the open interval
`(0.50, 1000)` yields `'$' + capture`; an out-of-bound first match falls
through to the next pattern. -/
def step1Result (s : String) : Option String :=
  let lc := lowerL s.data
  let tryCap : Option (List Char) → Option String := fun res =>
    match res with
    | some cap =>
      let v := ratOfNumeral cap
      if mkRat 1 2 < v ∧ v < 1000 then some (String.mk ('$' :: cap)) else none
    | none => none
  match tryCap (scanA lc) with
  | some r => some r
  | none => tryCap (scanB lc)

/-- The token pattern `/\$\d{1,4}(?:\.\d{2})?/g` (`allPriceMatches`): full
match texts, in order. -/
def dollarTokensAux : Nat → List Char → List (List Char)
  | 0, _ => []
  | _ + 1, [] => []
  | fuel + 1, c :: rest =>
    if c = '$' then
      let d := digitsTake 4 rest
      if d = [] then dollarTokensAux fuel rest
      else
        let (fr, r2) := fracDD (rest.drop d.length)
        ('$' :: (d ++ fr)) :: dollarTokensAux fuel r2
    else dollarTokensAux fuel rest

def dollarTokens (l : List Char) : List (List Char) := dollarTokensAux l.length l

/-- `prices`: the tokens parsed (`parseFloat(p.replace('$', ''))`) and
filtered to the sane bound `0.50 < p < 1000`. -/
def pagePrices (l : List Char) : List ℚ :=
  ((dollarTokens l).map (fun tok => ratOfNumeral (tok.drop 1))).filter
    (fun v => mkRat 1 2 < v ∧ v < 1000)

/-- Distinct values in first-occurrence order (the iteration order of the
JavaScript `Map` built by the frequency count). -/
def distinctAux : List ℚ → List ℚ → List ℚ
  | _, [] => []
  | seen, v :: rest =>
    if v ∈ seen then distinctAux seen rest
    else v :: distinctAux (v :: seen) rest

/-- `priceFrequency` as an association list in insertion order. -/
def freqList (l : List ℚ) : List (ℚ × Nat) :=
  (distinctAux [] l).map (fun v => (v, l.count v))

/-- `reasonableProductPrices`: frequency-counted prices with count ≥ 2,
sorted by descending value, then filtered to `1 < p < 200` (and count ≥ 2
again, as in the source). -/
def qualifyingPairs (s : String) : List (ℚ × Nat) :=
  let prices := pagePrices s.data
  let frequent :=
    ((freqList prices).filter (fun e => 2 ≤ e.2)).insertionSort
      (fun a b => b.1 ≤ a.1)
  frequent.filter (fun e => 1 < e.1 ∧ e.1 < 200 ∧ 2 ≤ e.2)

/-- `toFixed(2)` for the non-negative values handled here: round half up at
the second decimal and render with exactly two fraction digits. -/
def toFixed2 (q : ℚ) : List Char :=
  let n := (⌊Rat.divInt (200 * q.num + q.den) (2 * q.den)⌋).toNat
  Nat.toDigits 10 (n / 100) ++
    '.' :: (if n % 100 < 10 then '0' :: Nat.toDigits 10 (n % 100)
            else Nat.toDigits 10 (n % 100))

/-- Step 2 of `extractRegularPriceFromPage` (frequency/pairing inference):
requires at least two tokens, exactly two qualifying values, and an implied
discount within `[5, 60]`; returns the higher value as `'$' + toFixed(2)`. -/
def step2Result (s : String) : Option String :=
  if 2 ≤ (dollarTokens s.data).length then
    match qualifyingPairs s with
    | [hp, lp] =>
      let disc := qmul (qdiv (qsub hp.1 lp.1) hp.1) 100
      if 5 ≤ disc ∧ disc ≤ 60 then some (String.mk ('$' :: toFixed2 hp.1))
      else none
    | _ => none
  else none

/-- The pure page-text analysis of `extractRegularPriceFromPage`
(steps 1–2; step 3 inspects DOM styling and is outside the text contract). -/
def regularPriceTextAnalysis (s : String) : Option String :=
  match step1Result s with
  | some r => some r
  | none => step2Result s

/-- `match.replace(/[^$\d.]/g, '')`. -/
def cleanToken (tok : List Char) : List Char :=
  tok.filter (fun c => c = '$' || c.isDigit || c = '.')

/-- `replace('$', '')` (first occurrence only). -/
def removeFirstDollar : List Char → List Char
  | [] => []
  | c :: rest => if c = '$' then rest else c :: removeFirstDollar rest

/-- `validPrices` for one pattern of `extractPriceFromPage`: cleaned token
text plus parsed value, filtered to the sane bound. -/
def validFrom (toks : List (List Char)) : List (List Char × ℚ) :=
  toks.filterMap (fun m =>
    let cp := cleanToken m
    let v := ratOfNumeral (removeFirstDollar cp)
    if mkRat 1 2 < v ∧ v < 1000 then some (cp, v) else none)

/-- Head of the stable ascending sort by value: the leftmost minimum. -/
def pickMin : List (List Char × ℚ) → Option (List Char × ℚ)
  | [] => none
  | x :: rest => some (rest.foldl (fun acc y => if y.2 < acc.2 then y else acc) x)

/-- One pattern iteration of `extractPriceFromPage`: with at least one match,
collect the valid prices and return the lowest (the source's stable sort by
value followed by taking the first element); fall through on no valid price. -/
def currentFromTokens (toks : List (List Char)) : Option String :=
  if toks = [] then none
  else
    match pickMin (validFrom toks) with
    | some x => some (String.mk x.1)
    | none => none

/-- The token pattern `/CAD?\s*\$?\d{1,4}(?:\.\d{2})?/g` (case-sensitive). -/
def cadTokensAux : Nat → List Char → List (List Char)
  | 0, _ => []
  | _ + 1, [] => []
  | fuel + 1, c :: rest =>
    if c = 'C' then
      match rest with
      | 'A' :: r1 =>
        let dpart := match r1 with
          | 'D' :: _ => ['D']
          | _ => []
        let r2 := r1.drop dpart.length
        let ws := r2.takeWhile jsSpace
        let r3 := r2.drop ws.length
        let dol := match r3 with
          | '$' :: _ => ['$']
          | _ => []
        let r4 := r3.drop dol.length
        let d := digitsTake 4 r4
        if d = [] then cadTokensAux fuel rest
        else
          let (fr, r5) := fracDD (r4.drop d.length)
          ('C' :: 'A' :: (dpart ++ ws ++ dol ++ d ++ fr)) ::
            cadTokensAux fuel r5
      | _ => cadTokensAux fuel rest
    else cadTokensAux fuel rest

def cadTokens (l : List Char) : List (List Char) := cadTokensAux l.length l

/-- The pure page-text analysis of `extractPriceFromPage`: the two token
patterns in order, each via `currentFromTokens`. -/
def currentPriceTextAnalysis (s : String) : Option String :=
  match currentFromTokens (dollarTokens s.data) with
  | some r => some r
  | none => currentFromTokens (cadTokens s.data)

example : regularPriceTextAnalysis "$89.99 $89.99 $71.99 $71.99" = some "$89.99" := by
  decide
example : currentPriceTextAnalysis "$89.99 $89.99 $71.99 $71.99" = some "$71.99" := by
  decide
example : regularPriceTextAnalysis "was $10.00 $89.99 $89.99 $71.99 $71.99"
    = some "$10.00" := by decide
example : qualifyingPairs "was $10.00 $89.99 $89.99 $71.99 $71.99"
    = [(mkRat 8999 100, 2), (mkRat 7199 100, 2)] := by decide
example : step1Result "$39.99 was $49.99" = some "$49.99" := by decide

/-! ## Spec-side reformulations (for the refinement-style claims) -/

/-- The spec's notion of a *plausible* match: a positive parse that is not a
savings-amount callout (text contains `save`, the dynamic save regex accepts,
and the value is under the small-amount threshold 50). -/
def plausibleCap (text lc : List Char) (cap : List Char) : Bool :=
  decide (0 < ratOfNumeral (removeCommas cap)) &&
    !(containsSub lc saveWord &&
      (savePatScan cap text && decide (ratOfNumeral (removeCommas cap) < 50)))

/-- First plausible match of one tier, in source order. -/
def firstPlausible (text lc : List Char) (ms : List (List Char)) : Option ℚ :=
  (ms.find? (plausibleCap text lc)).map (fun cap => ratOfNumeral (removeCommas cap))

/-- The spec's description of the cascade: each tier contributes its first
plausible match; tiers are combined left to right, first success wins. -/
def specCascade (s : String) : Option ℚ :=
  let text := s.data
  let lc := lowerL text
  (firstPlausible text lc (tier1 text)).orElse fun _ =>
    (firstPlausible text lc (tier2 text)).orElse fun _ =>
      firstPlausible text lc (tier3 text)

/-! ## Basic lemmas about the parser -/

lemma parsePrice_empty : parsePrice "" = none := by decide

lemma parsePrice_pos (s : String) (p : ParsedPrice) (h : parsePrice s = some p) :
    0 < p.value := by
  simp only [parsePrice] at h
  split at h
  · exact absurd h (by simp)
  · split at h
    · exact absurd h (by simp)
    · rename_i v _
      split at h
      · exact absurd h (by simp)
      · rename_i hv
        cases h
        exact not_le.mp hv

/-- Projection lemma: the discount field of `parsePrices`, in terms of the
parses of its inputs. -/
lemma parsePrices_discountPercent (ct rt pt : Option String) :
    (parsePrices ct rt pt).discountPercent =
      match (match ct with
             | some s => if s = "" then none else parsePrice s
             | none => none),
            (match rt with
             | some s => if s = "" then none else parsePrice s
             | none => none) with
      | some p, some q =>
        if p.value < q.value then
          some ((jsRound (qmul (qdiv (qsub q.value p.value) q.value) 100) : ℤ) : ℚ)
        else none
      | _, _ => none := rfl

lemma parsePrices_currentPrice (ct rt pt : Option String) :
    (parsePrices ct rt pt).currentPrice =
      match ct with
      | some s => if s = "" then none else parsePrice s
      | none => none := rfl

lemma parsePrices_regularPrice (ct rt pt : Option String) :
    (parsePrices ct rt pt).regularPrice =
      match rt with
      | some s => if s = "" then none else parsePrice s
      | none => none := rfl

/-- The discount expression of the source, rewritten to the field operations
of `ℚ` and the mathematical floor. -/
lemma discount_as_round (c r : ℚ) :
    ((jsRound (qmul (qdiv (qsub r c) r) 100) : ℤ) : ℚ) =
      ((⌊100 * ((r - c) / r) + 1/2⌋ : ℤ) : ℚ) := by
  rw [jsRound_eq, qmul_eq, qdiv_eq, qsub_eq, mul_comm]

/-- Positivity of a resolved current/regular price field. -/
lemma priceField_pos (t : Option String) (p : ParsedPrice)
    (h : (match t with
          | some s => if s = "" then none else parsePrice s
          | none => none) = some p) : 0 < p.value := by
  match t with
  | none => simp at h
  | some s =>
    simp only at h
    split at h
    · simp at h
    · exact parsePrice_pos s p h

/-- Bounds of the rounded discount percentage. -/
lemma round_bounds (c r : ℚ) (hc : 0 < c) (hlt : c < r) :
    (0 : ℚ) ≤ ((⌊100 * ((r - c) / r) + 1/2⌋ : ℤ) : ℚ) ∧
      ((⌊100 * ((r - c) / r) + 1/2⌋ : ℤ) : ℚ) ≤ 100 := by
  have hr : 0 < r := hc.trans hlt
  have h1 : 0 < (r - c) / r := div_pos (by linarith) hr
  have h2 : (r - c) / r < 1 := (div_lt_one hr).2 (by linarith)
  have hx1 : (0 : ℚ) ≤ 100 * ((r - c) / r) + 1/2 := by nlinarith
  have hx2 : 100 * ((r - c) / r) + 1/2 < 101 := by nlinarith
  constructor
  · exact_mod_cast Int.floor_nonneg.2 hx1
  · have h3 : ⌊100 * ((r - c) / r) + 1/2⌋ < 101 := by
      apply Int.floor_lt.2
      exact_mod_cast hx2
    exact_mod_cast Int.lt_add_one_iff.1 h3

/-- C1.  Discount law of the dual-price resolver: whenever both parses
succeed with current value `c` and regular value `r`, `parsePrices` sets
`discountPercent = round(100*(r-c)/r)` exactly when `r > c`, and leaves it
absent when `r ≤ c`; whenever either parse fails it is absent. -/
theorem parsePrices_discount_law (ct rt : String) (pt : Option String) :
    match parsePrice ct, parsePrice rt with
    | some p, some q =>
      (parsePrices (some ct) (some rt) pt).discountPercent =
        (if p.value < q.value
         then some ((⌊100 * ((q.value - p.value) / q.value) + 1/2⌋ : ℤ) : ℚ)
         else none)
    | _, _ => (parsePrices (some ct) (some rt) pt).discountPercent = none := by
  rcases hc : parsePrice ct with _ | p <;> rcases hr : parsePrice rt with _ | q <;>
    rw [parsePrices_discountPercent] <;>
    by_cases hct : ct = "" <;> by_cases hrt : rt = "" <;>
    simp only [hct, hrt, if_true, if_false, hc, hr, reduceIte, ite_self]
  all_goals try (rw [hct, parsePrice_empty] at hc; cases hc)
  all_goals try (rw [hrt, parsePrice_empty] at hr; cases hr)
  all_goals rw [discount_as_round]

/-- C2.  Validation law: `validatePriceResult` accepts a result exactly when
a current price is present with positive value, the regular price (when
present) is at least the current price, and the discount (when present) lies
in `[0, 100]`. -/
theorem validatePriceResult_iff (r : PriceParsingResult) :
    validatePriceResult r = true ↔
      ((∃ cp, r.currentPrice = some cp ∧ 0 < cp.value ∧
          ∀ rp, r.regularPrice = some rp → cp.value ≤ rp.value) ∧
        ∀ d, r.discountPercent = some d → 0 ≤ d ∧ d ≤ 100) := by
  obtain ⟨cp?, rp?, d?, pt, es⟩ := r
  cases cp? with
  | none => simp [validatePriceResult]
  | some cp =>
    cases rp? with
    | none =>
      cases d? with
      | none => simp [validatePriceResult, not_le, not_lt, not_or]
      | some d => simp [validatePriceResult, not_le, not_lt, not_or]
    | some rp =>
      cases d? with
      | none => simp [validatePriceResult, not_le, not_lt, not_or]
      | some d =>
        simp [validatePriceResult, not_le, not_lt, not_or]
        tauto

/-- C10.  Resolver invariant: a present `discountPercent` implies both
prices are present, the regular value strictly exceeds the current value,
and the discount lies in `[0, 100]`. -/
theorem parsePrices_discount_invariant (ct rt pt : Option String) (d : ℚ)
    (h : (parsePrices ct rt pt).discountPercent = some d) :
    ∃ p q, (parsePrices ct rt pt).currentPrice = some p ∧
      (parsePrices ct rt pt).regularPrice = some q ∧
      p.value < q.value ∧ 0 ≤ d ∧ d ≤ 100 := by
  rw [parsePrices_discountPercent] at h
  rw [parsePrices_currentPrice, parsePrices_regularPrice]
  have main : ∀ (cur reg : Option ParsedPrice),
      (∀ p, cur = some p → 0 < p.value) →
      ((match cur, reg with
        | some p, some q =>
          if p.value < q.value then
            some ((jsRound (qmul (qdiv (qsub q.value p.value) q.value) 100) : ℤ) : ℚ)
          else none
        | _, _ => none) = some d) →
      ∃ p q, cur = some p ∧ reg = some q ∧
        p.value < q.value ∧ 0 ≤ d ∧ d ≤ 100 := by
    intro cur reg hpos hm
    cases cur with
    | none => cases hm
    | some p =>
      cases reg with
      | none => cases hm
      | some q =>
        simp only [] at hm
        split at hm
        · rename_i hlt
          injection hm with hm'
          subst hm'
          have hp : 0 < p.value := hpos p rfl
          have hb := round_bounds p.value q.value hp hlt
          rw [discount_as_round]
          exact ⟨p, q, rfl, rfl, hlt, hb.1, hb.2⟩
        · cases hm
  exact main _ _ (fun p hp => priceField_pos ct p hp) h

/-- C9 (amended).  `originalText` is the *trimmed* input: for every string
on which `parsePrice` succeeds, the returned `originalText` equals
`priceText.trim()` (hence equals the input verbatim only when the input
carries no leading or trailing whitespace). -/
theorem parsePrice_originalText_trimmed (s : String) (p : ParsedPrice)
    (h : parsePrice s = some p) : p.originalText = jsTrimStr s := by
  simp only [parsePrice] at h
  split at h
  · cases h
  · split at h
    · cases h
    · split at h
      · cases h
      · cases h
        rfl

/-- C9 (counterexample).  On the input `" $5.00"` the parse succeeds but
`originalText` is not the input verbatim. -/
theorem parsePrice_originalText_cex :
    (parsePrice " $5.00").isSome = true ∧
      (parsePrice " $5.00").map ParsedPrice.originalText ≠ some " $5.00" := by
  decide

/-- C9 witness. -/
theorem parsePrice_originalText_trimmed_witness :
    (ParsedPrice.mk 5 "$5.00" (some "CAD") false none).originalText
      = jsTrimStr " $5.00" :=
  parsePrice_originalText_trimmed " $5.00" _ (by decide)

/-- C10 witness. -/
theorem parsePrices_discount_invariant_witness :
    ∃ p q, (parsePrices (some "Sale: $24.99") (some "$34.99") none).currentPrice = some p ∧
      (parsePrices (some "Sale: $24.99") (some "$34.99") none).regularPrice = some q ∧
      p.value < q.value ∧ (0 : ℚ) ≤ 29 ∧ (29 : ℚ) ≤ 100 :=
  parsePrices_discount_invariant (some "Sale: $24.99") (some "$34.99") none 29 (by decide)

/-- The inner loop of a tier equals "first plausible match in source
order". -/
lemma selectLoop_eq (text lc : List Char) (ms : List (List Char)) :
    selectLoop text lc ms = firstPlausible text lc ms := by
  induction ms with
  | nil => rfl
  | cons cap rest ih =>
    simp only [selectLoop, firstPlausible, List.find?_cons]
    by_cases h0 : 0 < ratOfNumeral (removeCommas cap)
    · by_cases hcs : containsSub lc saveWord = true
      · by_cases hsk :
            (savePatScan cap text && decide (ratOfNumeral (removeCommas cap) < 50)) = true
        · have hpf : plausibleCap text lc cap = false := by
            simp [plausibleCap, hcs, hsk, h0]
          rw [if_pos h0, if_pos hcs, if_pos hsk, hpf]
          rw [firstPlausible] at ih
          simpa using ih
        · have hpt : plausibleCap text lc cap = true := by
            simp only [Bool.and_eq_true, not_and, decide_eq_true_eq] at hsk
            simp [plausibleCap, h0, hcs]
            by_cases hs : savePatScan cap text = true
            · right
              exact not_lt.1 (fun hlt => (hsk hs) (by simpa using hlt))
            · left
              simpa using hs
          rw [if_pos h0, if_pos hcs, if_neg (by simpa using hsk), hpt]
          simp
      · have hpt : plausibleCap text lc cap = true := by
          simp [plausibleCap, h0]
          left
          simpa using hcs
        rw [if_pos h0, if_neg hcs, hpt]
        simp
    · have hpf : plausibleCap text lc cap = false := by
        simp [plausibleCap, h0]
      rw [if_neg h0, hpf]
      rw [firstPlausible] at ih
      simpa using ih

/-- The cascade characterization used by C6 and C7. -/
lemma extractNumericPrice_eq_spec (s : String) :
    extractNumericPrice s = if negCheck s.data then none else specCascade s := by
  simp only [extractNumericPrice, specCascade]
  by_cases hn : negCheck s.data = true
  · simp [hn]
  · simp only [hn, Bool.false_eq_true, if_false, tiersLoop, selectLoop_eq]
    cases firstPlausible s.data (lowerL s.data) (tier1 s.data) with
    | some v => simp
    | none =>
      simp only []
      cases firstPlausible s.data (lowerL s.data) (tier2 s.data) with
      | some v => simp
      | none =>
        simp only [tiersLoop]
        cases firstPlausible s.data (lowerL s.data) (tier3 s.data) <;> simp

/-- C6.  Within a tier `extractNumericPrice` scans matches in source order,
returning the first plausible one (plausible: positive and not a
savings-amount callout below the threshold); tiers combine left to right.
In particular `parsePrice("Save $5 - Now $19.99")` skips the save amount and
yields `19.99` with `isSalePrice = true`. -/
theorem save_skip_source_order :
    (∀ s : String,
      extractNumericPrice s = if negCheck s.data then none else specCascade s) ∧
    parsePrice "Save $5 - Now $19.99" =
      some { value := mkRat 1999 100, originalText := "Save $5 - Now $19.99",
             currency := some "CAD", isSalePrice := true, context := none } :=
  ⟨extractNumericPrice_eq_spec, by decide⟩

/-- C7 (counterexample).  On `"$0.00 7.50"` tier 1 has a match (value 0),
yet the returned value 7.50 comes from tier 2: the cascade falls through
when every tier-1 match is implausible. -/
theorem tier_cascade_cex :
    extractNumericPrice "$0.00 7.50" = some (mkRat 15 2) ∧
    (tier1 "$0.00 7.50".data).map (fun cap => ratOfNumeral (removeCommas cap)) = [0] ∧
    ((mkRat 15 2) ∈
      (tier1 "$0.00 7.50".data).map (fun cap => ratOfNumeral (removeCommas cap))) = False := by
  refine ⟨by decide, by decide, ?_⟩
  simp only [eq_iff_iff, iff_false]
  decide

/-- C7 (amended).  First tier with a *plausible* match wins: whenever tier 1
contains a plausible match (and the negative-price guard does not fire), the
result of `extractNumericPrice` is exactly tier 1's first plausible value;
tiers 2 and 3 are only consulted when every tier-1 match is implausible. -/
theorem tier_cascade_first_plausible_wins (s : String) (v : ℚ)
    (hn : negCheck s.data = false)
    (h : firstPlausible s.data (lowerL s.data) (tier1 s.data) = some v) :
    extractNumericPrice s = some v := by
  simp only [extractNumericPrice, hn, Bool.false_eq_true, if_false, tiersLoop,
    selectLoop_eq, h]

/-- C7 witness. -/
theorem tier_cascade_first_plausible_wins_witness :
    extractNumericPrice "$19.99" = some (mkRat 1999 100) :=
  tier_cascade_first_plausible_wins "$19.99" (mkRat 1999 100) (by decide) (by decide)

/-! ## Substring lemmas for the unusable-input claim -/

lemma startsWithL_iff (p l : List Char) : startsWithL p l = true ↔ p <+: l := by
  induction p generalizing l with
  | nil => simp [startsWithL]
  | cons a ps ih =>
    cases l with
    | nil => simp [startsWithL]
    | cons c cs => simp [startsWithL, ih, List.cons_prefix_cons]

lemma containsSub_iff (l p : List Char) : containsSub l p = true ↔ p <:+: l := by
  induction l with
  | nil => simp [containsSub, startsWithL_iff]
  | cons c rest ih =>
    rw [containsSub, Bool.or_eq_true, startsWithL_iff, ih, List.infix_cons_iff]

lemma infix_dropWhile_of_infix (p : List Char) (hne : p ≠ [])
    (hp : ∀ c ∈ p, jsSpace c = false) :
    ∀ m : List Char, p <:+: m → p <:+: m.dropWhile jsSpace := by
  intro m
  induction m with
  | nil => simp
  | cons c rest ih =>
    intro h
    by_cases hc : jsSpace c = true
    · rw [List.dropWhile_cons_of_pos hc]
      apply ih
      rcases List.infix_cons_iff.1 h with hpre | hinf
      · cases p with
        | nil => exact absurd rfl hne
        | cons ph pt =>
          rw [List.cons_prefix_cons] at hpre
          have := hp ph (List.mem_cons_self ph pt)
          rw [hpre.1, hc] at this
          cases this
      · exact hinf
    · rwa [List.dropWhile_cons_of_neg hc]

lemma infix_trim_of_infix (p l : List Char) (hne : p ≠ [])
    (hp : ∀ c ∈ p, jsSpace c = false) (h : p <:+: l) : p <:+: jsTrim l := by
  rw [jsTrim]
  have h1 : p <:+: l.dropWhile jsSpace := infix_dropWhile_of_infix p hne hp l h
  have h2 : p.reverse <:+: (l.dropWhile jsSpace).reverse :=
    List.reverse_infix.2 h1
  have h3 : p.reverse <:+: ((l.dropWhile jsSpace).reverse.dropWhile jsSpace) :=
    infix_dropWhile_of_infix p.reverse (by simpa using hne)
      (fun c hc => hp c (List.mem_reverse.1 hc)) _ h2
  have h4 := List.reverse_infix.2 h3
  rwa [List.reverse_reverse] at h4

/-- Any text containing the substring `$-` parses to `null`. -/
lemma parsePrice_dollar_minus (s : String)
    (h : containsSub s.data ['$', '-'] = true) : parsePrice s = none := by
  simp only [parsePrice]
  split
  · rfl
  · have hin : ['$', '-'] <:+: jsTrim s.data :=
      infix_trim_of_infix _ _ (by simp) (by decide) ((containsSub_iff _ _).1 h)
    have hcs : containsSub (jsTrim s.data) ['$', '-'] = true :=
      (containsSub_iff _ _).2 hin
    have hx : extractNumericPrice (String.mk (jsTrim s.data)) = none := by
      simp only [extractNumericPrice, negCheck, hcs]
      simp
    rw [hx]

/-- C4.  Unusable-input rejection: `null`/`undefined`/non-string inputs,
empty or whitespace-only strings, and `$-`-containing texts are rejected
with `null`; a successful parse always carries a positive value (so a text
whose only extractable amounts are non-positive yields `null`), with
`"$0.00"` and `"$-5.99"` as the spec's concrete instances. -/
theorem parsePrice_unusable_input :
    parsePriceJS JSVal.nullV = none ∧
    parsePriceJS JSVal.undefV = none ∧
    (∀ q, parsePriceJS (JSVal.numV q) = none) ∧
    (∀ b, parsePriceJS (JSVal.boolV b) = none) ∧
    (∀ s : String, jsTrimStr s = "" → parsePrice s = none) ∧
    (∀ s : String, containsSub s.data ['$', '-'] = true → parsePrice s = none) ∧
    parsePrice "$0.00" = none ∧
    parsePrice "$-5.99" = none ∧
    (∀ s p, parsePrice s = some p → 0 < p.value) := by
  refine ⟨rfl, rfl, fun _ => rfl, fun _ => rfl, ?_, parsePrice_dollar_minus,
    by decide, by decide, parsePrice_pos⟩
  intro s h
  have hdata : jsTrim s.data = [] := by
    have := congrArg String.data h
    simpa [jsTrimStr] using this
  simp [parsePrice, hdata]

/-- C4 witness. -/
theorem parsePrice_unusable_input_witness :
    parsePrice "   " = none ∧ parsePrice "abc $- 7" = none ∧
      (0 : ℚ) < (ParsedPrice.mk 5 "$5.00" (some "CAD") false none).value :=
  ⟨parsePrice_unusable_input.2.2.2.2.1 "   " (by decide),
   parsePrice_unusable_input.2.2.2.2.2.1 "abc $- 7" (by decide),
   parsePrice_unusable_input.2.2.2.2.2.2.2.2 " $5.00" _ (by decide)⟩

/-! ## C5: exactness of tier 1 on exact pattern strings -/

/-- The ten decimal digit characters. -/
def digitList : List Char := ['0','1','2','3','4','5','6','7','8','9']

/-- The characters a tier-1-exact string may contain. -/
def allowedChars : List Char := '$' :: ',' :: '.' :: digitList

/-- A string that consists exactly of a dollar sign followed by comma-grouped
digits with an optional two-digit fraction (the claim's tier-1 grammar
`"$" + digits[,digits]*["."digits99]` with three-digit groups):
`d1` is the leading group (1–3 digits), `gs` the comma groups (3 digits
each), `fr` the optional fraction. -/
structure Tier1Str where
  d1 : List Char
  gs : List (List Char)
  fr : Option (Char × Char)

/-- Well-formedness of the grammar components. -/
def Tier1Str.wf (t : Tier1Str) : Bool :=
  decide (1 ≤ t.d1.length) && decide (t.d1.length ≤ 3) &&
  t.d1.all (fun c => decide (c ∈ digitList)) &&
  t.gs.all (fun g => decide (g.length = 3) && g.all (fun c => decide (c ∈ digitList))) &&
  t.fr.all (fun ab => decide (ab.1 ∈ digitList) && decide (ab.2 ∈ digitList))

/-- The comma groups as rendered text. -/
def groupsRender (gs : List (List Char)) : List Char :=
  gs.foldr (fun g acc => ',' :: (g ++ acc)) []

/-- The optional fraction as rendered text. -/
def fracRender : Option (Char × Char) → List Char
  | none => []
  | some (a, b) => ['.', a, b]

/-- The capture (everything after the dollar sign), commas included. -/
def Tier1Str.capture (t : Tier1Str) : List Char :=
  t.d1 ++ groupsRender t.gs ++ fracRender t.fr

/-- The rendered string. -/
def Tier1Str.render (t : Tier1Str) : String := String.mk ('$' :: t.capture)

/-- The denoted amount: the decimal reading of the numeral with the comma
separators removed. -/
def Tier1Str.value (t : Tier1Str) : ℚ :=
  ratOfNumeral (t.d1 ++ t.gs.foldr (· ++ ·) [] ++ fracRender t.fr)

lemma digit_isDigit : ∀ c ∈ digitList, c.isDigit = true := by decide

lemma allowed_not_space : ∀ c ∈ allowedChars, jsSpace c = false := by decide

lemma allowed_toLower : ∀ c ∈ allowedChars, c.toLower = c := by decide

lemma allowed_ne : ∀ c ∈ allowedChars, c ≠ '-' ∧ c ≠ 's' := by decide

lemma digit_ne_comma : ∀ c ∈ digitList, (c ≠ ',') = True := by decide

lemma groupsRender_chars (gs : List (List Char))
    (hg : ∀ g ∈ gs, ∀ c ∈ g, c ∈ digitList) :
    ∀ c ∈ groupsRender gs, c = ',' ∨ c ∈ digitList := by
  induction gs with
  | nil => simp [groupsRender]
  | cons g gs ih =>
    intro c hc
    simp only [groupsRender, List.foldr_cons, List.mem_cons, List.mem_append] at hc
    rcases hc with rfl | hc | hc
    · exact Or.inl rfl
    · exact Or.inr (hg g (List.mem_cons_self g gs) c hc)
    · exact ih (fun g' hg' => hg g' (List.mem_cons_of_mem _ hg')) c hc

/-- The characters of a well-formed render all lie in `allowedChars`. -/
lemma Tier1Str.render_chars (t : Tier1Str) (hw : t.wf = true) :
    ∀ c ∈ '$' :: t.capture, c ∈ allowedChars := by
  simp only [Tier1Str.wf, Bool.and_eq_true, decide_eq_true_eq,
    List.all_eq_true] at hw
  obtain ⟨⟨⟨⟨_, _⟩, hd⟩, hg⟩, hf⟩ := hw
  intro c hc
  rcases List.mem_cons.1 hc with rfl | hc
  · simp [allowedChars]
  · simp only [Tier1Str.capture, List.append_assoc, List.mem_append] at hc
    rcases hc with hc | hc | hc
    · have := hd c hc
      simp only [decide_eq_true_eq] at this
      simp [allowedChars, this]
    · have hg' : ∀ g ∈ t.gs, ∀ x ∈ g, x ∈ digitList := by
        intro g hgm x hx
        have := (hg g hgm).2 x hx
        simpa using this
      rcases groupsRender_chars t.gs hg' c hc with rfl | hcd
      · simp [allowedChars]
      · simp [allowedChars, hcd]
    · cases hfr : t.fr with
      | none => rw [hfr] at hc; simp [fracRender] at hc
      | some ab =>
        rw [hfr] at hc
        obtain ⟨a, b⟩ := ab
        have hab : (decide (a ∈ digitList) && decide (b ∈ digitList)) = true := by
          rw [hfr] at hf
          simpa [Option.all] using hf
        simp only [Bool.and_eq_true, decide_eq_true_eq] at hab
        simp only [fracRender, List.mem_cons] at hc
        rcases hc with rfl | rfl | rfl | hc
        · simp [allowedChars]
        · simp [allowedChars, hab.1]
        · simp [allowedChars, hab.2]
        · simp at hc

/-- Unpacked well-formedness. -/
lemma Tier1Str.wf_spec (t : Tier1Str) (hw : t.wf = true) :
    1 ≤ t.d1.length ∧ t.d1.length ≤ 3 ∧ (∀ c ∈ t.d1, c ∈ digitList) ∧
    (∀ g ∈ t.gs, g.length = 3 ∧ ∀ c ∈ g, c ∈ digitList) ∧
    (∀ a b, t.fr = some (a, b) → a ∈ digitList ∧ b ∈ digitList) := by
  simp only [Tier1Str.wf, Bool.and_eq_true, decide_eq_true_eq,
    List.all_eq_true] at hw
  obtain ⟨⟨⟨⟨h1, h2⟩, hd⟩, hg⟩, hf⟩ := hw
  refine ⟨h1, h2, fun c hc => by simpa using hd c hc,
    fun g hgm => ⟨(hg g hgm).1, fun c hc => by simpa using (hg g hgm).2 c hc⟩,
    fun a b hab => ?_⟩
  rw [hab] at hf
  simpa [Option.all] using hf

lemma jsTrim_eq_self (l : List Char) (h : ∀ c ∈ l, jsSpace c = false) :
    jsTrim l = l := by
  have h1 : l.dropWhile jsSpace = l := by
    cases l with
    | nil => rfl
    | cons c rest =>
      rw [List.dropWhile_cons, if_neg]
      simp [h c (List.mem_cons_self c rest)]
  rw [jsTrim, h1]
  have h2 : l.reverse.dropWhile jsSpace = l.reverse := by
    cases hrev : l.reverse with
    | nil => rfl
    | cons c rest =>
      rw [List.dropWhile_cons, if_neg]
      have : c ∈ l := by
        rw [← List.mem_reverse, hrev]
        exact List.mem_cons_self c rest
      simp [h c this]
  rw [h2, List.reverse_reverse]

lemma lowerL_eq_self (l : List Char) (h : ∀ c ∈ l, c.toLower = c) :
    lowerL l = l := by
  induction l with
  | nil => rfl
  | cons c rest ih =>
    rw [lowerL, List.map_cons, h c (List.mem_cons_self c rest)]
    rw [lowerL] at ih
    rw [ih (fun x hx => h x (List.mem_cons_of_mem _ hx))]

lemma containsSub_false_of_not_mem (l p : List Char) (c : Char)
    (hcp : c ∈ p) (hcl : c ∉ l) : containsSub l p = false := by
  cases hcs : containsSub l p with
  | false => rfl
  | true =>
    have := ((containsSub_iff l p).1 hcs).subset hcp
    exact absurd this hcl

lemma dollarWsMinus_mem (l : List Char) (h : dollarWsMinus l = true) :
    '-' ∈ l := by
  induction l with
  | nil => cases h
  | cons c rest ih =>
    rw [dollarWsMinus, Bool.or_eq_true] at h
    rcases h with h | h
    · rw [Bool.and_eq_true] at h
      right
      rcases hdr : rest.drop (rest.takeWhile jsSpace).length with _ | ⟨c', rest'⟩
      · rw [hdr] at h
        cases h.2
      · rw [hdr] at h
        have hc' : c' = '-' := by
          have := h.2
          simpa using this
        apply List.mem_of_mem_drop (n := (rest.takeWhile jsSpace).length)
        rw [hdr, hc']
        exact List.mem_cons_self _ _
    · exact List.mem_cons_of_mem _ (ih h)

lemma takeWhile_digits_append (d r : List Char)
    (hd : ∀ c ∈ d, c.isDigit = true)
    (hr : ∀ c, r.head? = some c → c.isDigit = false) :
    (d ++ r).takeWhile Char.isDigit = d := by
  induction d with
  | nil =>
    cases r with
    | nil => rfl
    | cons c rest =>
      simp only [List.nil_append, List.takeWhile_cons]
      rw [if_neg]
      simp [hr c rfl]
  | cons a ds ih =>
    simp only [List.cons_append, List.takeWhile_cons]
    rw [if_pos (by simp [hd a (List.mem_cons_self a ds)])]
    rw [ih (fun c hc => hd c (List.mem_cons_of_mem _ hc))]

lemma tier1Aux_nil (f : Nat) : tier1Aux f [] = [] := by cases f <;> rfl

lemma grabGroups_not_comma (l : List Char)
    (h : ∀ c, l.head? = some c → c ≠ ',') : grabGroups l = ([], l) := by
  match l with
  | [] => rfl
  | c :: rest =>
    have hc : c ≠ ',' := h c rfl
    match c, rest, hc with
    | c, [], hc => rw [grabGroups.eq_def]; split <;> simp_all
    | c, [x], hc => rw [grabGroups.eq_def]; split <;> simp_all
    | c, [x, y], hc => rw [grabGroups.eq_def]; split <;> simp_all
    | c, x :: y :: z :: r, hc => rw [grabGroups.eq_def]; split <;> simp_all

lemma grabGroups_render (gs : List (List Char)) (fr' : List Char)
    (hg : ∀ g ∈ gs, g.length = 3 ∧ ∀ c ∈ g, c ∈ digitList)
    (hfr : ∀ c, fr'.head? = some c → c ≠ ',') :
    grabGroups (groupsRender gs ++ fr') = (groupsRender gs, fr') := by
  induction gs with
  | nil =>
    simp only [groupsRender, List.foldr_nil, List.nil_append]
    exact grabGroups_not_comma fr' hfr
  | cons g gs ih =>
    obtain ⟨hlen, hdig⟩ := hg g (List.mem_cons_self g gs)
    obtain ⟨x, y, z, rfl⟩ := List.length_eq_three.1 hlen
    have hx := hdig x (by simp)
    have hy := hdig y (by simp)
    have hz := hdig z (by simp)
    simp only [groupsRender, List.foldr_cons, List.cons_append, List.append_assoc]
    rw [grabGroups]
    rw [if_pos (by simp [digit_isDigit x hx, digit_isDigit y hy, digit_isDigit z hz])]
    simp only [List.nil_append]
    rw [show (List.foldr (fun g acc => ',' :: (g ++ acc)) [] gs) ++ fr'
          = groupsRender gs ++ fr' from rfl,
       ih (fun g' hg' => hg g' (List.mem_cons_of_mem _ hg'))]
    rfl

lemma grabFrac1_render (fr : Option (Char × Char))
    (hf : ∀ a b, fr = some (a, b) → a ∈ digitList ∧ b ∈ digitList) :
    grabFrac1 (fracRender fr) = (fracRender fr, []) := by
  cases fr with
  | none => rfl
  | some ab =>
    obtain ⟨a, b⟩ := ab
    obtain ⟨ha, hb⟩ := hf a b rfl
    simp only [fracRender]
    rw [grabFrac1]
    have htW : List.takeWhile Char.isDigit [a, b] = [a, b] := by
      simp [List.takeWhile_cons, digit_isDigit a ha, digit_isDigit b hb]
    rw [htW]
    simp

/-- The tier-1 scanner on an exact pattern string finds exactly the one
capture. -/
lemma tier1_render (t : Tier1Str) (hw : t.wf = true) :
    tier1 ('$' :: t.capture) = [t.capture] := by
  obtain ⟨h1, h2, hd, hg, hf⟩ := t.wf_spec hw
  have hd' : ∀ c ∈ t.d1, c.isDigit = true := fun c hc => digit_isDigit c (hd c hc)
  have htail : ∀ c, (groupsRender t.gs ++ fracRender t.fr).head? = some c →
      c.isDigit = false := by
    intro c hc
    cases hgs : t.gs with
    | cons g gs =>
      obtain ⟨hlen, -⟩ := hg g (by rw [hgs]; exact List.mem_cons_self g gs)
      obtain ⟨x, y, z, rfl⟩ := List.length_eq_three.1 hlen
      rw [hgs] at hc
      simp only [groupsRender, List.foldr_cons, List.cons_append,
        List.head?_cons, Option.some.injEq] at hc
      rw [← hc]
      decide
    | nil =>
      rw [hgs] at hc
      simp only [groupsRender, List.foldr_nil, List.nil_append] at hc
      cases hfr : t.fr with
      | none => rw [hfr] at hc; simp [fracRender] at hc
      | some ab =>
        obtain ⟨a, b⟩ := ab
        rw [hfr] at hc
        simp only [fracRender, List.head?_cons, Option.some.injEq] at hc
        rw [← hc]
        decide
  have htw : (t.capture).takeWhile Char.isDigit = t.d1 := by
    rw [Tier1Str.capture, List.append_assoc]
    exact takeWhile_digits_append t.d1 _ hd' htail
  have hd1ne : t.d1 ≠ [] := by
    intro h
    rw [h] at h1
    cases h1
  have hdrop : (t.capture).drop t.d1.length = groupsRender t.gs ++ fracRender t.fr := by
    rw [Tier1Str.capture, List.append_assoc]
    exact List.drop_left t.d1 _
  have hfrne : ∀ c, (fracRender t.fr).head? = some c → c ≠ ',' := by
    intro c hc
    cases hfr : t.fr with
    | none => rw [hfr] at hc; simp [fracRender] at hc
    | some ab =>
      obtain ⟨a, b⟩ := ab
      rw [hfr] at hc
      simp only [fracRender, List.head?_cons, Option.some.injEq] at hc
      rw [← hc]
      decide
  rw [tier1, show ('$' :: t.capture).length = t.capture.length + 1 from rfl]
  rw [tier1Aux]
  rw [if_pos rfl]
  simp only [digitsTake, htw]
  rw [List.take_of_length_le h2]
  rw [if_neg hd1ne]
  rw [hdrop]
  rw [grabGroups_render t.gs (fracRender t.fr) hg hfrne]
  simp only []
  rw [grabFrac1_render t.fr hf]
  simp only []
  rw [tier1Aux_nil]
  rw [Tier1Str.capture, List.append_assoc]

lemma digit_not_comma : ∀ c ∈ digitList, c ≠ ',' := by decide

lemma removeCommas_groups (gs : List (List Char))
    (hg : ∀ g ∈ gs, g.length = 3 ∧ ∀ c ∈ g, c ∈ digitList) :
    (groupsRender gs).filter (fun c => c ≠ ',') = gs.foldr (· ++ ·) [] := by
  induction gs with
  | nil => rfl
  | cons g gs ih =>
    obtain ⟨hlen, hdig⟩ := hg g (List.mem_cons_self g gs)
    obtain ⟨x, y, z, rfl⟩ := List.length_eq_three.1 hlen
    simp only [groupsRender, List.foldr_cons, List.filter_cons, List.cons_append,
      List.nil_append]
    rw [if_neg (by simp), if_pos (by simp [digit_not_comma x (hdig x (by simp))]),
      if_pos (by simp [digit_not_comma y (hdig y (by simp))]),
      if_pos (by simp [digit_not_comma z (hdig z (by simp))])]
    rw [show List.filter (fun c => decide (c ≠ ','))
          (List.foldr (fun g acc => ',' :: (g ++ acc)) [] gs)
        = (groupsRender gs).filter (fun c => c ≠ ',') from rfl]
    rw [ih (fun g' hg' => hg g' (List.mem_cons_of_mem _ hg'))]

/-- Removing the commas from the capture yields the plain numeral. -/
lemma removeCommas_capture (t : Tier1Str) (hw : t.wf = true) :
    removeCommas t.capture =
      t.d1 ++ t.gs.foldr (· ++ ·) [] ++ fracRender t.fr := by
  obtain ⟨-, -, hd, hg, hf⟩ := t.wf_spec hw
  have hA : t.d1.filter (fun c => c ≠ ',') = t.d1 := by
    rw [List.filter_eq_self]
    intro c hc
    simp [digit_not_comma c (hd c hc)]
  have hC : (fracRender t.fr).filter (fun c => c ≠ ',') = fracRender t.fr := by
    rw [List.filter_eq_self]
    intro c hc
    cases hfr : t.fr with
    | none => rw [hfr] at hc; simp [fracRender] at hc
    | some ab =>
      obtain ⟨a, b⟩ := ab
      obtain ⟨ha, hb⟩ := hf a b hfr
      rw [hfr] at hc
      simp only [fracRender, List.mem_cons] at hc
      rcases hc with rfl | rfl | rfl | hc
      · decide
      · exact decide_eq_true (digit_not_comma _ ha)
      · exact decide_eq_true (digit_not_comma _ hb)
      · simp at hc
  rw [Tier1Str.capture, removeCommas, List.filter_append, List.filter_append,
    hA, hC, removeCommas_groups t.gs hg]

/-- On an exact tier-1 string with positive denoted amount, numeric
extraction returns exactly the denoted amount. -/
lemma extractNumericPrice_render (t : Tier1Str) (hw : t.wf = true)
    (hv : 0 < t.value) :
    extractNumericPrice (String.mk ('$' :: t.capture)) = some t.value := by
  have hchars := t.render_chars hw
  have hminus : '-' ∉ '$' :: t.capture := by
    intro h
    exact (allowed_ne '-' (hchars '-' h)).1 rfl
  have hs : 's' ∉ '$' :: t.capture := by
    intro h
    exact (allowed_ne 's' (hchars 's' h)).2 rfl
  have hneg : negCheck ('$' :: t.capture) = false := by
    rw [negCheck, Bool.or_eq_false_iff]
    constructor
    · exact containsSub_false_of_not_mem _ _ '-' (by simp) hminus
    · cases hdm : dollarWsMinus ('$' :: t.capture) with
      | false => rfl
      | true => exact absurd (dollarWsMinus_mem _ hdm) hminus
  have hlow : lowerL ('$' :: t.capture) = '$' :: t.capture :=
    lowerL_eq_self _ (fun c hc => allowed_toLower c (hchars c hc))
  simp only [extractNumericPrice]
  rw [hneg]
  simp only [Bool.false_eq_true, if_false]
  rw [hlow, tier1_render t hw]
  have hval : ratOfNumeral (removeCommas t.capture) = t.value := by
    rw [removeCommas_capture t hw, Tier1Str.value]
  rw [tiersLoop, selectLoop, hval]
  rw [if_pos hv, containsSub_false_of_not_mem _ saveWord 's' (by decide) hs]
  simp

/-- C5.  Tier-1 numeric correctness: on every string consisting exactly of a
dollar sign followed by comma-grouped digits and an optional two-digit
fraction, with positive denoted amount, `parsePrice` succeeds and returns
the denoted amount with the comma separators removed. -/
theorem tier1_exact_parse (t : Tier1Str) (hw : t.wf = true)
    (hv : 0 < t.value) :
    (parsePrice t.render).map ParsedPrice.value = some t.value := by
  have hchars := t.render_chars hw
  have htrim : jsTrim ('$' :: t.capture) = '$' :: t.capture :=
    jsTrim_eq_self _ (fun c hc => allowed_not_space c (hchars c hc))
  simp only [parsePrice, Tier1Str.render]
  rw [htrim]
  rw [if_neg (by simp)]
  rw [extractNumericPrice_render t hw hv]
  have hnle : ¬ t.value ≤ 0 := not_le.2 hv
  simp [hnle]

/-- C5 witness: the concrete tier-1 string `"$1,234.56"`. -/
theorem tier1_exact_parse_witness :
    (Tier1Str.mk ['1'] [['2','3','4']] (some ('5','6'))).wf = true ∧
    0 < (Tier1Str.mk ['1'] [['2','3','4']] (some ('5','6'))).value ∧
    (parsePrice (Tier1Str.mk ['1'] [['2','3','4']] (some ('5','6'))).render).map
        ParsedPrice.value
      = some (Tier1Str.mk ['1'] [['2','3','4']] (some ('5','6'))).value :=
  ⟨by decide, by decide, tier1_exact_parse _ (by decide) (by decide)⟩

example : (Tier1Str.mk ['1'] [['2','3','4']] (some ('5','6'))).render = "$1,234.56" := by
  decide
example : (Tier1Str.mk ['1'] [['2','3','4']] (some ('5','6'))).value = mkRat 123456 100 := by
  decide

/-! ## C8: totality — the only latent failure point, construction of the
dynamic save regex, is unreachable

`extractNumericPrice` builds `new RegExp('save\\s*\\$?' + match[1] + '\\b')`
from a captured group at runtime; `RegExp` construction throws `SyntaxError`
on source text containing regex metacharacters that do not form a valid
pattern.  The `Except`-valued variants below model exactly that throw point;
every capture of the three tier scanners consists of digits, commas and
dots only, so the error branch is unreachable and both entry points are
total. -/

/-- The character set of captures for which the dynamic regex construction
is guaranteed not to throw. -/
def regexSafe (cap : List Char) : Bool :=
  cap.all (fun c => c.isDigit || c = ',' || c = '.')

lemma takeWhile_mem (p : Char → Bool) (l : List Char) :
    ∀ c ∈ l.takeWhile p, p c = true := by
  induction l with
  | nil => simp
  | cons a rest ih =>
    rw [List.takeWhile_cons]
    split
    · intro c hc
      rcases List.mem_cons.1 hc with rfl | hc
      · assumption
      · exact ih c hc
    · simp

lemma grabGroups_chars (l : List Char) :
    ∀ c ∈ (grabGroups l).1, c = ',' ∨ c.isDigit = true := by
  induction l using grabGroups.induct with
  | case1 a b c rest h g r hgr ih =>
    intro x hx
    rw [grabGroups, if_pos h, hgr] at hx
    simp only [List.mem_cons] at hx
    simp only [Bool.and_eq_true] at h
    rcases hx with rfl | rfl | rfl | rfl | hx
    · exact Or.inl rfl
    · exact Or.inr h.1.1
    · exact Or.inr h.1.2
    · exact Or.inr h.2
    · exact ih x (by rw [hgr]; exact hx)
  | case2 a b c rest h =>
    intro x hx
    rw [grabGroups, if_neg h] at hx
    simp at hx
  | case3 l hl =>
    intro x hx
    rw [grabGroups.eq_def] at hx
    split at hx
    · rename_i a b c rest
      exact absurd rfl (hl a b c rest)
    · simp at hx

lemma grabFrac1_chars (l : List Char) :
    ∀ c ∈ (grabFrac1 l).1, c = '.' ∨ c.isDigit = true := by
  rw [grabFrac1.eq_def]
  split
  · rename_i rest
    simp only []
    split
    · simp
    · intro c hc
      rcases List.mem_cons.1 hc with rfl | hc
      · exact Or.inl rfl
      · exact Or.inr (takeWhile_mem Char.isDigit rest c hc)
  · simp

lemma tier1Aux_safe (fuel : Nat) :
    ∀ l : List Char, ∀ cap ∈ tier1Aux fuel l, regexSafe cap = true := by
  induction fuel with
  | zero => intro l cap hcap; simp [tier1Aux] at hcap
  | succ f ih =>
    intro l cap hcap
    cases l with
    | nil => simp [tier1Aux] at hcap
    | cons c0 rest =>
      simp only [tier1Aux] at hcap
      split at hcap
      · split at hcap
        · exact ih rest cap hcap
        · rcases hgr : grabGroups (rest.drop (digitsTake 3 rest).length)
            with ⟨gs, r2⟩
          rw [hgr] at hcap
          rcases hfr : grabFrac1 r2 with ⟨fr, r3⟩
          rw [hfr] at hcap
          simp only [List.mem_cons] at hcap
          rcases hcap with rfl | hcap
          · rw [regexSafe, List.all_eq_true]
            intro c hc
            simp only [List.mem_append] at hc
            rcases hc with (hc | hc) | hc
            · simp only [digitsTake] at hc
              have := takeWhile_mem Char.isDigit rest c
                (List.take_subset 3 _ hc)
              simp [this]
            · have hm : c ∈ (grabGroups (rest.drop (digitsTake 3 rest).length)).1 := by
                rw [hgr]; exact hc
              rcases grabGroups_chars _ c hm with rfl | hd
              · simp
              · simp [hd]
            · have hm : c ∈ (grabFrac1 r2).1 := by rw [hfr]; exact hc
              rcases grabFrac1_chars r2 c hm with rfl | hd
              · simp
              · simp [hd]
          · exact ih r3 cap hcap
      · exact ih rest cap hcap

lemma tier2At_safe (l cap r3 : List Char) (h : tier2At l = some (cap, r3)) :
    regexSafe cap = true := by
  simp only [tier2At] at h
  split at h
  · cases h
  · rcases hgr : grabGroups (l.drop (l.takeWhile Char.isDigit).length)
      with ⟨gs, r2⟩
    rw [hgr] at h
    dsimp only at h
    split at h
    · rename_i a b r3' heq
      split at h
      · rename_i hcond
        injection h with h'
        injection h' with hcap hr
        subst hcap
        rw [regexSafe, List.all_eq_true]
        intro c hc
        simp only [List.mem_append, List.mem_cons] at hc
        simp only [Bool.and_eq_true] at hcond
        rcases hc with (hc | hc) | rfl | rfl | rfl | hc
        · have := takeWhile_mem Char.isDigit l c hc
          simp [this]
        · rcases grabGroups_chars _ c (by rw [hgr]; exact hc) with rfl | hd
          · simp
          · simp [hd]
        · simp
        · simp [hcond.1.1]
        · simp [hcond.1.2]
        · simp at hc
      · cases h
    · cases h

lemma tier2Aux_safe (fuel : Nat) :
    ∀ (pw : Bool) (l : List Char), ∀ cap ∈ tier2Aux fuel pw l, regexSafe cap = true := by
  induction fuel with
  | zero => intro pw l cap hcap; simp [tier2Aux] at hcap
  | succ f ih =>
    intro pw l cap hcap
    cases l with
    | nil => simp [tier2Aux] at hcap
    | cons c0 rest =>
      simp only [tier2Aux] at hcap
      split at hcap
      · rcases h2 : tier2At (c0 :: rest) with _ | ⟨cap', r3⟩
        · rw [h2] at hcap
          exact ih _ rest cap hcap
        · rw [h2] at hcap
          simp only [List.mem_cons] at hcap
          rcases hcap with rfl | hcap
          · exact tier2At_safe _ cap r3 h2
          · exact ih _ r3 cap hcap
      · exact ih _ rest cap hcap

lemma tier3At_safe (l cap r3 : List Char) (h : tier3At l = some (cap, r3)) :
    regexSafe cap = true := by
  simp only [tier3At] at h
  split at h
  · cases h
  · split at h
    · rename_i rest2 heq
      split at h
      · injection h with h'
        injection h' with hcap hr
        subst hcap
        rw [regexSafe, List.all_eq_true]
        intro c hc
        simp [takeWhile_mem Char.isDigit l c hc]
      · split at h
        · injection h with h'
          injection h' with hcap hr
          subst hcap
          rw [regexSafe, List.all_eq_true]
          intro c hc
          simp only [List.mem_append, List.mem_cons] at hc
          rcases hc with hc | rfl | hc
          · simp [takeWhile_mem Char.isDigit l c hc]
          · simp
          · simp [takeWhile_mem Char.isDigit rest2 c hc]
        · injection h with h'
          injection h' with hcap hr
          subst hcap
          rw [regexSafe, List.all_eq_true]
          intro c hc
          simp [takeWhile_mem Char.isDigit l c hc]
    · injection h with h'
      injection h' with hcap hr
      subst hcap
      rw [regexSafe, List.all_eq_true]
      intro c hc
      simp [takeWhile_mem Char.isDigit l c hc]
    · split at h
      · injection h with h'
        injection h' with hcap hr
        subst hcap
        rw [regexSafe, List.all_eq_true]
        intro c hc
        simp [takeWhile_mem Char.isDigit l c hc]
      · cases h

lemma tier3Aux_safe (fuel : Nat) :
    ∀ (pw : Bool) (l : List Char), ∀ cap ∈ tier3Aux fuel pw l, regexSafe cap = true := by
  induction fuel with
  | zero => intro pw l cap hcap; simp [tier3Aux] at hcap
  | succ f ih =>
    intro pw l cap hcap
    cases l with
    | nil => simp [tier3Aux] at hcap
    | cons c0 rest =>
      simp only [tier3Aux] at hcap
      split at hcap
      · rcases h2 : tier3At (c0 :: rest) with _ | ⟨cap', r3⟩
        · rw [h2] at hcap
          exact ih _ rest cap hcap
        · rw [h2] at hcap
          simp only [List.mem_cons] at hcap
          rcases hcap with rfl | hcap
          · exact tier3At_safe _ cap r3 h2
          · exact ih _ r3 cap hcap
      · exact ih _ rest cap hcap

/-- The inner match loop with the dynamic-regex construction modelled as a
fallible step: a capture outside the safe character set makes `new RegExp`
throw a `SyntaxError`. -/
def selectLoopE (text lc : List Char) : List (List Char) → Except String (Option ℚ)
  | [] => .ok none
  | cap :: rest =>
    let parsed := ratOfNumeral (removeCommas cap)
    if 0 < parsed then
      if containsSub lc saveWord then
        if regexSafe cap then
          if savePatScan cap text && parsed < 50 then selectLoopE text lc rest
          else .ok (some parsed)
        else .error "SyntaxError: invalid regular expression"
      else .ok (some parsed)
    else selectLoopE text lc rest

/-- The outer pattern loop, propagating a thrown error. -/
def tiersLoopE (text lc : List Char) : List (List (List Char)) → Except String (Option ℚ)
  | [] => .ok none
  | ms :: rest =>
    match selectLoopE text lc ms with
    | .ok (some v) => .ok (some v)
    | .ok none => tiersLoopE text lc rest
    | .error e => .error e

/-- `extractNumericPrice` with the latent throw modelled. -/
def extractNumericPriceE (s : String) : Except String (Option ℚ) :=
  let text := s.data
  if negCheck text then .ok none
  else tiersLoopE text (lowerL text) [tier1 text, tier2 text, tier3 text]

/-- `parsePrice` with the latent throw modelled. -/
def parsePriceE (priceText : String) : Except String (Option ParsedPrice) :=
  let trimmed := jsTrim priceText.data
  if trimmed = [] then .ok none
  else
    match extractNumericPriceE (String.mk trimmed) with
    | .error e => .error e
    | .ok none => .ok none
    | .ok (some v) =>
      if v ≤ 0 then .ok none
      else
        .ok (some { value := v
                    originalText := String.mk trimmed
                    currency := detectCurrency trimmed
                    isSalePrice := detectSalePrice trimmed
                    context := extractContext trimmed })

/-- `parsePrices` with the latent throw modelled (an exception in either
sub-parse propagates). -/
def parsePricesE (currentPriceText regularPriceText promoText : Option String) :
    Except String PriceParsingResult :=
  let curE : Except String (Option ParsedPrice) :=
    match currentPriceText with
    | some s => if s = "" then .ok none else parsePriceE s
    | none => .ok none
  match curE with
  | .error e => .error e
  | .ok _ =>
    let regE : Except String (Option ParsedPrice) :=
      match regularPriceText with
      | some s => if s = "" then .ok none else parsePriceE s
      | none => .ok none
    match regE with
    | .error e => .error e
    | .ok _ => .ok (parsePrices currentPriceText regularPriceText promoText)

lemma selectLoopE_eq (text lc : List Char) (ms : List (List Char))
    (hsafe : ∀ cap ∈ ms, regexSafe cap = true) :
    selectLoopE text lc ms = .ok (selectLoop text lc ms) := by
  induction ms with
  | nil => rfl
  | cons cap rest ih =>
    rw [selectLoopE, selectLoop]
    have hr := ih (fun c hc => hsafe c (List.mem_cons_of_mem _ hc))
    split
    · split
      · rw [hsafe cap (List.mem_cons_self cap rest)]
        simp only [if_true]
        split
        · exact hr
        · rfl
      · rfl
    · exact hr

lemma extractNumericPriceE_eq (s : String) :
    extractNumericPriceE s = .ok (extractNumericPrice s) := by
  rw [extractNumericPriceE, extractNumericPrice]
  split
  · rfl
  · have h1 := selectLoopE_eq s.data (lowerL s.data) (tier1 s.data)
      (tier1Aux_safe _ _)
    have h2 := selectLoopE_eq s.data (lowerL s.data) (tier2 s.data)
      (tier2Aux_safe _ _ _)
    have h3 := selectLoopE_eq s.data (lowerL s.data) (tier3 s.data)
      (tier3Aux_safe _ _ _)
    rw [tiersLoopE, tiersLoop, h1]
    cases selectLoop s.data (lowerL s.data) (tier1 s.data) with
    | some v => rfl
    | none =>
      simp only []
      rw [tiersLoopE, tiersLoop, h2]
      cases selectLoop s.data (lowerL s.data) (tier2 s.data) with
      | some v => rfl
      | none =>
        simp only []
        rw [tiersLoopE, tiersLoop, h3]
        cases selectLoop s.data (lowerL s.data) (tier3 s.data) with
        | some v => rfl
        | none => rfl

lemma parsePriceE_eq (s : String) : parsePriceE s = .ok (parsePrice s) := by
  rw [parsePriceE, parsePrice]
  split
  · rfl
  · rw [extractNumericPriceE_eq]
    cases extractNumericPrice (String.mk (jsTrim s.data)) with
    | none => rfl
    | some v =>
      simp only []
      split <;> rfl

/-- C8.  Totality / never throws: with the dynamic-regex construction (the
only latent throw point) modelled explicitly, `parsePrice` and `parsePrices`
return `Except.ok` on every input — the error branch is unreachable, and
absence of a usable number is signalled only by `none`/absent fields. -/
theorem parse_never_throws :
    (∀ s : String, parsePriceE s = .ok (parsePrice s)) ∧
    (∀ ct rt pt : Option String,
      parsePricesE ct rt pt = .ok (parsePrices ct rt pt)) := by
  have step : ∀ t : Option String,
      (match t with
       | some s => if s = "" then .ok none else parsePriceE s
       | none => .ok none : Except String (Option ParsedPrice)) =
      .ok (match t with
           | some s => if s = "" then none else parsePrice s
           | none => none) := by
    intro t
    cases t with
    | none => rfl
    | some s =>
      simp only []
      split
      · rfl
      · rw [parsePriceE_eq]
  refine ⟨parsePriceE_eq, fun ct rt pt => ?_⟩
  rw [parsePricesE.eq_def, step ct, step rt]

/-! ## C3: the fallback pairing rule -/

/-- An entry of `qualifyingPairs` records a frequency of at least 2, which
is the count of its value among the page prices. -/
lemma qualifying_mem (s : String) (e : ℚ × Nat) (he : e ∈ qualifyingPairs s) :
    2 ≤ e.2 ∧ e.2 = (pagePrices s.data).count e.1 := by
  simp only [qualifyingPairs] at he
  have h1 := List.mem_filter.1 he
  have hband := h1.2
  simp only [decide_eq_true_eq] at hband
  refine ⟨hband.2.2, ?_⟩
  have h2 : e ∈ (freqList (pagePrices s.data)).filter (fun e => 2 ≤ e.2) :=
    (List.perm_insertionSort _ _).mem_iff.1 h1.1
  have h3 := (List.mem_filter.1 h2).1
  simp only [freqList, List.mem_map] at h3
  obtain ⟨v, -, hv⟩ := h3
  rw [← hv]

lemma pagePrices_length_le (l : List Char) :
    (pagePrices l).length ≤ (dollarTokens l).length := by
  rw [pagePrices]
  exact le_trans (List.length_filter_le _ _) (le_of_eq (List.length_map _ _))

/-- C3 (amended).  Fallback pairing, conditional on the contextual
(`was`/`originally`/`regular`/`msrp`/`list`) search finding nothing: with
exactly two qualifying values (band `(1,200)`, frequency ≥ 2) the page-text
analysis returns the higher value (two-decimal formatted) iff the implied
discount lies in `[5, 60]`; with any other number of qualifying values it
returns no regular-price candidate; the current-price heuristic returns the
leftmost lowest sane-bounded token; and on the spec's concrete page text the
candidates are `$89.99` (regular) and `$71.99` (current). -/
theorem fallback_pairing :
    (∀ (s : String) (hp lp : ℚ × Nat), step1Result s = none →
      qualifyingPairs s = [hp, lp] →
      regularPriceTextAnalysis s =
        (if 5 ≤ (hp.1 - lp.1) / hp.1 * 100 ∧ (hp.1 - lp.1) / hp.1 * 100 ≤ 60
         then some (String.mk ('$' :: toFixed2 hp.1)) else none)) ∧
    (∀ s : String, step1Result s = none → (qualifyingPairs s).length ≠ 2 →
      regularPriceTextAnalysis s = none) ∧
    (∀ (s : String) (x : List Char × ℚ),
      pickMin (validFrom (dollarTokens s.data)) = some x →
      currentPriceTextAnalysis s = some (String.mk x.1)) ∧
    (regularPriceTextAnalysis "$89.99 $89.99 $71.99 $71.99" = some "$89.99" ∧
     currentPriceTextAnalysis "$89.99 $89.99 $71.99 $71.99" = some "$71.99") := by
  refine ⟨?_, ?_, ?_, by decide, by decide⟩
  · intro s hp lp h1 hq
    have hmem : hp ∈ qualifyingPairs s := by
      rw [hq]
      exact List.mem_cons_self hp [lp]
    obtain ⟨hc2, hcount⟩ := qualifying_mem s hp hmem
    have htoks : 2 ≤ (dollarTokens s.data).length := by
      calc 2 ≤ hp.2 := hc2
      _ = (pagePrices s.data).count hp.1 := hcount
      _ ≤ (pagePrices s.data).length := List.count_le_length _ _
      _ ≤ (dollarTokens s.data).length := pagePrices_length_le _
    simp only [regularPriceTextAnalysis, h1]
    rw [step2Result, if_pos htoks, hq]
    simp only []
    rw [qmul_eq, qdiv_eq, qsub_eq]
  · intro s h1 hlen
    simp only [regularPriceTextAnalysis, h1]
    rw [step2Result]
    split
    · split
      · rename_i hq
        rw [hq] at hlen
        simp at hlen
      · rfl
    · rfl
  · intro s x hx
    have htoks : dollarTokens s.data ≠ [] := by
      intro h0
      rw [h0] at hx
      simp [validFrom, pickMin] at hx
    simp only [currentPriceTextAnalysis]
    rw [currentFromTokens, if_neg htoks, hx]

/-- C3 (counterexample).  The claim without the step-1 proviso is false: on
a page text whose qualifying values are exactly `89.99` (×2) and `71.99`
(×2) with implied discount ≈ 20% (inside `[5, 60]`), the locator returns
`$10.00` — the contextual `was`-pattern match — rather than the higher
qualifying value `$89.99`. -/
theorem fallback_pairing_cex :
    regularPriceTextAnalysis "was $10.00 $89.99 $89.99 $71.99 $71.99"
      = some "$10.00" ∧
    qualifyingPairs "was $10.00 $89.99 $89.99 $71.99 $71.99"
      = [(mkRat 8999 100, 2), (mkRat 7199 100, 2)] ∧
    (5 : ℚ) ≤ (mkRat 8999 100 - mkRat 7199 100) / mkRat 8999 100 * 100 ∧
    (mkRat 8999 100 - mkRat 7199 100) / mkRat 8999 100 * 100 ≤ 60 ∧
    some "$10.00" ≠ some "$89.99" := by
  have he : (mkRat 8999 100 - mkRat 7199 100) / mkRat 8999 100 * 100
      = mkRat 180000 8999 := by
    simp only [Rat.mkRat_eq_div]
    norm_num
  refine ⟨by decide, by decide, ?_, ?_, by decide⟩
  · rw [he]
    decide
  · rw [he]
    decide

/-- C3 witness. -/
theorem fallback_pairing_witness :
    step1Result "$50.00 $50.00 $40.00 $40.00" = none ∧
    qualifyingPairs "$50.00 $50.00 $40.00 $40.00" = [(50, 2), (40, 2)] ∧
    regularPriceTextAnalysis "$50.00 $50.00 $40.00 $40.00" = some "$50.00" := by
  refine ⟨by decide, by decide, ?_⟩
  have h := fallback_pairing.1 "$50.00 $50.00 $40.00 $40.00" (50, 2) (40, 2)
    (by decide) (by decide)
  rw [h, if_pos (by norm_num)]
  decide
